import Mathlib

/-!
# Verification of the loss-projected-posterior sampling engine

This development embeds `src/pipeline/inference/sampler.py` — the numerical
engine for loss-projected-posterior (LPP) sampling — and proves or refutes
the specification's claims about it.

The embedding has two layers, both translated from the source:

* `JacOp` — the per-batch linear algebra of `batched_proj` and `batched_jjt`,
  with the Jacobian of the batched function evaluation at the base point
  represented in explicit block form (one matrix block per parameter tensor,
  mirroring the per-key dict of Jacobian blocks produced by `torch.func`).
  Machine floats are modelled by exact rational arithmetic.
* `Sampler` — the module-level control flow (`precompute_inv_jjt`,
  `apply_proj_cycle`, `alternating_projection`, `randn_params`,
  `lpp_sampler`, `estimate_precision`) over parameter dictionaries modelled
  as association lists of named flat tensors.  External effects — the
  filesystem used by the pickle cache, the RNG behind `torch.randn_like`,
  and the numeric library routines `torch.sqrt` and `torch.linalg.pinv` —
  are threaded as explicit parameters.
-/

open Matrix

namespace JacOp

/-- The block-structured parameter space: `K` named parameter tensors, the
`k`-th flattened to `w k` entries.  Models the "dict of tensors" a
`ParameterSet` is in the source, with tensors flattened (as the source itself
does via `flatten(1)` when contracting). -/
abbrev Params (K : ℕ) (w : Fin K → ℕ) : Type := (k : Fin K) → Fin (w k) → ℚ

variable {K : ℕ} {w : Fin K → ℕ} {B : ℕ}

/-- Forward-mode directional derivative (`torch.func.jvp`) of the batched
evaluation `fp p = vmap(func)(p, xb, yb)` at the base point, in direction
`v`: the Jacobian–vector product `J·v`, summed over parameter blocks.
`Jb k` is the Jacobian block of the batched evaluation with respect to the
`k`-th parameter tensor, evaluated at `base_params`. -/
def jvp (Jb : (k : Fin K) → Matrix (Fin B) (Fin (w k)) ℚ) (v : Params K w) :
    Fin B → ℚ :=
  fun b => ∑ k, (Jb k).mulVec (v k) b

/-- Reverse-mode derivative (`torch.func.vjp`) of the batched evaluation at
the same base point: the vector–Jacobian product `Jᵗ·u`, one block per
parameter tensor. -/
def vjp (Jb : (k : Fin K) → Matrix (Fin B) (Fin (w k)) ℚ) (u : Fin B → ℚ) :
    Params K w :=
  fun k => (Jb k)ᵀ.mulVec u

/-- `batched_proj` (sampler.py:211-262): given the cached matrix `inv_jjt`,
computes `Jv` by forward mode, `u = inv_jjt @ Jv`, `Jᵗu` by reverse mode at
the same base point, and returns the per-entry difference
`{k: v - vjp[k] for k, v in params_to_proj.items()}`. -/
def batched_proj (Jb : (k : Fin K) → Matrix (Fin B) (Fin (w k)) ℚ)
    (inv_jjt : Matrix (Fin B) (Fin B) ℚ) (c : Params K w) : Params K w :=
  fun k i => c k i - vjp Jb (inv_jjt.mulVec (jvp Jb c)) k i

/-- `batched_jjt` (sampler.py:110-155): for each parameter block, the
`B × B` Gram matrix of the flattened block Jacobian (`einsum 'NP,MP->NM'`),
then the stack summed across blocks. -/
def batched_jjt (Jb : (k : Fin K) → Matrix (Fin B) (Fin (w k)) ℚ) :
    Matrix (Fin B) (Fin B) ℚ :=
  ∑ k, Jb k * (Jb k)ᵀ

/-- The full stacked, flattened Jacobian of the batched evaluation: all
parameter blocks laid side by side, columns indexed by (block, entry). -/
def stackJ (Jb : (k : Fin K) → Matrix (Fin B) (Fin (w k)) ℚ) :
    Matrix (Fin B) ((k : Fin K) × Fin (w k)) ℚ :=
  Matrix.of fun b p => Jb p.1 b p.2

/-- A parameter set viewed as one flat vector over (block, entry) indices. -/
def flat (c : Params K w) : ((k : Fin K) × Fin (w k)) → ℚ :=
  fun p => c p.1 p.2

theorem flat_injective (c d : Params K w) (h : flat c = flat d) : c = d := by
  funext k i
  exact congrFun h ⟨k, i⟩

theorem jvp_eq_stackJ_mulVec (Jb : (k : Fin K) → Matrix (Fin B) (Fin (w k)) ℚ)
    (v : Params K w) : jvp Jb v = (stackJ Jb).mulVec (flat v) := by
  funext b
  simp only [jvp, stackJ, flat, Matrix.mulVec, Matrix.dotProduct, Matrix.of_apply]
  rw [← Finset.univ_sigma_univ, Finset.sum_sigma]

theorem flat_vjp (Jb : (k : Fin K) → Matrix (Fin B) (Fin (w k)) ℚ)
    (u : Fin B → ℚ) : flat (vjp Jb u) = (stackJ Jb)ᵀ.mulVec u := by
  funext p
  simp only [vjp, flat, stackJ, Matrix.mulVec, Matrix.dotProduct,
    Matrix.transpose_apply, Matrix.of_apply]

theorem flat_batched_proj_sub (Jb : (k : Fin K) → Matrix (Fin B) (Fin (w k)) ℚ)
    (inv_jjt : Matrix (Fin B) (Fin B) ℚ) (c : Params K w) :
    flat (batched_proj Jb inv_jjt c) =
      flat c - (stackJ Jb)ᵀ.mulVec (inv_jjt.mulVec ((stackJ Jb).mulVec (flat c))) := by
  have h1 : flat (batched_proj Jb inv_jjt c) =
      flat c - flat (vjp Jb (inv_jjt.mulVec (jvp Jb c))) := by
    funext p
    simp [batched_proj, flat]
  rw [h1, flat_vjp, jvp_eq_stackJ_mulVec]

theorem flat_batched_proj (Jb : (k : Fin K) → Matrix (Fin B) (Fin (w k)) ℚ)
    (inv_jjt : Matrix (Fin B) (Fin B) ℚ) (c : Params K w) :
    flat (batched_proj Jb inv_jjt c) =
      ((1 : Matrix ((k : Fin K) × Fin (w k)) ((k : Fin K) × Fin (w k)) ℚ) -
        (stackJ Jb)ᵀ * inv_jjt * stackJ Jb).mulVec (flat c) := by
  rw [flat_batched_proj_sub, Matrix.sub_mulVec, Matrix.one_mulVec,
    ← Matrix.mulVec_mulVec, ← Matrix.mulVec_mulVec]

end JacOp

/-- C1: `batched_proj` returns `candidate − Jᵗ·(inv_jjt · (J·candidate))`,
with the directional derivative and the adjoint both taken at the base point,
i.e. (viewing the parameter dict as one flat vector) it applies the operator
`I − Jᵗ·inv_jjt·J` to the candidate, where `J` is the Jacobian of the
batched evaluation at `base_params` over the given batch. -/
theorem batched_proj_is_projection_operator {K : ℕ} {w : Fin K → ℕ} {B : ℕ}
    (Jb : (k : Fin K) → Matrix (Fin B) (Fin (w k)) ℚ)
    (inv_jjt : Matrix (Fin B) (Fin B) ℚ) (c : JacOp.Params K w) :
    JacOp.flat (JacOp.batched_proj Jb inv_jjt c) =
      JacOp.flat c -
        (JacOp.stackJ Jb)ᵀ.mulVec (inv_jjt.mulVec ((JacOp.stackJ Jb).mulVec (JacOp.flat c))) ∧
    JacOp.flat (JacOp.batched_proj Jb inv_jjt c) =
      ((1 : Matrix ((k : Fin K) × Fin (w k)) ((k : Fin K) × Fin (w k)) ℚ) -
        (JacOp.stackJ Jb)ᵀ * inv_jjt * JacOp.stackJ Jb).mulVec (JacOp.flat c) :=
  ⟨JacOp.flat_batched_proj_sub Jb inv_jjt c, JacOp.flat_batched_proj Jb inv_jjt c⟩

/-- C6: if the candidate is already in the null space of the batch Jacobian
(`J·c = 0`), `batched_proj` returns it unchanged, whatever cached matrix
`inv_jjt` is supplied (in particular the pseudo-inverse of `J·Jᵗ`). -/
theorem batched_proj_idempotent_on_null_space {K : ℕ} {w : Fin K → ℕ} {B : ℕ}
    (Jb : (k : Fin K) → Matrix (Fin B) (Fin (w k)) ℚ)
    (inv_jjt : Matrix (Fin B) (Fin B) ℚ) (c : JacOp.Params K w)
    (h : (JacOp.stackJ Jb).mulVec (JacOp.flat c) = 0) :
    JacOp.batched_proj Jb inv_jjt c = c := by
  have hj : JacOp.jvp Jb c = 0 := by
    rw [JacOp.jvp_eq_stackJ_mulVec, h]
  funext k i
  simp [JacOp.batched_proj, JacOp.vjp, hj, Matrix.mulVec_zero]

def JbW : (k : Fin 1) → Matrix (Fin 1) (Fin ((fun _ => 2) k)) ℚ := fun _ => !![1, 1]

def cW : JacOp.Params 1 (fun _ => 2) := fun _ => ![1, -1]

def AW : Matrix (Fin 1) (Fin 1) ℚ := !![5]

theorem jvp_JbW_cW : (JacOp.stackJ JbW).mulVec (JacOp.flat cW) = 0 := by
  rw [← JacOp.jvp_eq_stackJ_mulVec]
  funext b
  fin_cases b
  simp [JacOp.jvp, Matrix.mulVec, Matrix.dotProduct, Fin.sum_univ_two, JbW, cW]

/-- Concrete instance of C6: the candidate `(1, -1)` lies in the null space of
the Jacobian `(1 1)` and is returned unchanged. -/
theorem batched_proj_idempotent_on_null_space_witness :
    (JacOp.stackJ JbW).mulVec (JacOp.flat cW) = 0 ∧
      JacOp.batched_proj JbW AW cW = cW :=
  ⟨jvp_JbW_cW, batched_proj_idempotent_on_null_space JbW AW cW jvp_JbW_cW⟩

/-- C7: the single-batch projection is linear in the candidate:
`project(c1 + a·c2) = project(c1) + a·project(c2)` exactly. -/
theorem batched_proj_linear {K : ℕ} {w : Fin K → ℕ} {B : ℕ}
    (Jb : (k : Fin K) → Matrix (Fin B) (Fin (w k)) ℚ)
    (inv_jjt : Matrix (Fin B) (Fin B) ℚ) (c1 c2 : JacOp.Params K w) (a : ℚ) :
    JacOp.batched_proj Jb inv_jjt (c1 + a • c2) =
      JacOp.batched_proj Jb inv_jjt c1 + a • JacOp.batched_proj Jb inv_jjt c2 := by
  apply JacOp.flat_injective
  have hadd : ∀ x y : JacOp.Params K w, JacOp.flat (x + y) = JacOp.flat x + JacOp.flat y :=
    fun x y => rfl
  have hsmul : ∀ (b : ℚ) (x : JacOp.Params K w), JacOp.flat (b • x) = b • JacOp.flat x :=
    fun b x => rfl
  rw [hadd, hsmul, JacOp.flat_batched_proj, JacOp.flat_batched_proj,
    JacOp.flat_batched_proj, hadd, hsmul, Matrix.mulVec_add, Matrix.mulVec_smul]

/-- C8: `batched_jjt` equals the sum over parameter blocks of the Gram
matrices `J_block · J_blockᵗ`, which is the Gram matrix of the full stacked,
flattened Jacobian contracted with its own transpose. -/
theorem batched_jjt_eq_gram {K : ℕ} {w : Fin K → ℕ} {B : ℕ}
    (Jb : (k : Fin K) → Matrix (Fin B) (Fin (w k)) ℚ) :
    JacOp.batched_jjt Jb = JacOp.stackJ Jb * (JacOp.stackJ Jb)ᵀ := by
  ext i j
  simp only [JacOp.batched_jjt, Matrix.sum_apply, Matrix.mul_apply,
    Matrix.transpose_apply, JacOp.stackJ, Matrix.of_apply]
  rw [← Finset.univ_sigma_univ, Finset.sum_sigma]

namespace Sampler

/-- A dense tensor, flattened to its list of entries. -/
abbrev Tensor := List ℚ

/-- A `ParameterSet`: the ordered dict mapping parameter names to tensors,
modelled as an association list in insertion order. -/
abbrev ParamSet := List (String × Tensor)

/-- A dense matrix as a list of rows. -/
abbrev Mat := List (List ℚ)

/-- The device a tensor lives on. -/
inductive Dev : Type
  | cpu : Dev
  | cuda : Dev
deriving DecidableEq

/-- A matrix together with its device placement. -/
structure DMat : Type where
  mat : Mat
  dev : Dev
deriving DecidableEq

/-- `.cpu()`: move a matrix to host-side storage. -/
def DMat.toCpu (m : DMat) : DMat := ⟨m.mat, Dev.cpu⟩

/-- Names and shapes of a parameter dict (a tensor's shape is modelled by its
flattened entry count). -/
def pshape (p : ParamSet) : List (String × ℕ) :=
  p.map (fun kv => (kv.1, kv.2.length))

/-- Elementwise dot product of two flat tensors. -/
def dotL (v u : List ℚ) : ℚ := (List.zipWith (fun a b => a * b) v u).sum

/-- Inner product of two parameter dicts with matching structure. -/
def psDot (p q : ParamSet) : ℚ :=
  (List.zipWith (fun kv lw => dotL kv.2 lw.2) p q).sum

/-- Scale every entry of a parameter dict. -/
def psSmul (a : ℚ) (p : ParamSet) : ParamSet :=
  p.map (fun kv => (kv.1, kv.2.map (fun x => a * x)))

/-- Entrywise sum of two parameter dicts with matching structure. -/
def psAdd (p q : ParamSet) : ParamSet :=
  List.zipWith (fun kv lw => (kv.1, List.zipWith (fun a b => a + b) kv.2 lw.2)) p q

/-- The zero dict of the same structure as `p`. -/
def psZero (p : ParamSet) : ParamSet :=
  p.map (fun kv => (kv.1, kv.2.map (fun _ => (0 : ℚ))))

/-- Python dict lookup `p[k]` (total here; every lookup reached in this
development finds its key). -/
def psLookup (p : ParamSet) (k : String) : Tensor :=
  ((p.find? (fun kv => kv.1 == k)).map (fun kv => kv.2)).getD []

/-- The external autodiff adapter's view of one data batch `(xb, yb)`: the
rows of the Jacobian of the batched evaluation
`fp p = vmap(func)(p, xb, yb)` at `base_params` — one parameter-shaped
gradient dict per batch output element.  `torch.func.jvp` with tangent `c`
returns the row-wise inner products `J·c`, and `torch.func.vjp` with
cotangent `u` returns the weighted sum of rows `Jᵗ·u`. -/
abbrev BatchJac := List ParamSet

/-- `batched_proj` (sampler.py:211-262) at dict level: `Jv` by forward mode,
`u = inv_jjt @ Jv` by `torch.matmul`, `Jᵗu` by reverse mode at the same base
point, then `{k: v - vjp[k] for k, v in params_to_proj.items()}`. -/
def batched_proj (g : BatchJac) (inv_jjt : Mat) (c : ParamSet) : ParamSet :=
  let jv : List ℚ := g.map (fun row => psDot row c)
  let u : List ℚ := inv_jjt.map (fun arow => dotL arow jv)
  let vjp : ParamSet :=
    (List.zip u g).foldr (fun bu acc => psAdd (psSmul bu.1 bu.2) acc) (psZero c)
  c.map (fun kv => (kv.1, List.zipWith (fun a b => a - b) kv.2 (psLookup vjp kv.1)))

/-- `batched_jjt` (sampler.py:110-155) at dict level: the `B × B` matrix
whose `(i, j)` entry is the sum across parameter blocks of the contraction
of the `i`-th and `j`-th flattened per-example Jacobians (`psDot` is exactly
that block-wise sum; the equality of the source's block-by-block
`einsum`/stack/sum with this Gram form is `batched_jjt_eq_gram`). -/
def batched_jjt (g : BatchJac) : Mat :=
  g.map (fun gi => g.map (fun gj => psDot gi gj))

/-- The pickle-backed filesystem: the deserialized cache stored at each
path, if any. -/
abbrev FS := String → Option (List DMat)

/-- The accumulation loop of `precompute_inv_jjt` (sampler.py:193-202):
iterate the batch sequence in order, for each batch compute `JJᵗ`, its
pseudo-inverse (`torch.linalg.pinv`, the external numeric routine, passed in
as `pinv`), move it to host memory with `.cpu()`, and append. -/
def precomputeLoop (pinv : Mat → Mat) (dev : Dev) :
    List BatchJac → List DMat → List DMat
  | [], acc => acc
  | g :: rest, acc =>
      precomputeLoop pinv dev rest (acc ++ [DMat.toCpu ⟨pinv (batched_jjt g), dev⟩])

/-- `precompute_inv_jjt` (sampler.py:158-208).  `save_path = none` models the
unset default `save_path=None`: the guard `os.path.exists(save_path)` then
raises `TypeError` (Python 3's `os.stat` rejects `None` and
`genericpath.exists` only swallows `OSError`/`ValueError`), modelled as an
error result.  Otherwise: if the path holds persisted content it is
deserialized and returned verbatim; else every batch's pseudo-inverted `JJᵗ`
is computed in order and the full sequence is written to the path once, after
the loop finishes.  `dev` is the device of `base_params` (sampler.py:194). -/
def precompute_inv_jjt (pinv : Mat → Mat) (dev : Dev) (train_loader : List BatchJac)
    (save_path : Option String) (fs : FS) : Except String (List DMat × FS) :=
  match save_path with
  | none => Except.error "TypeError"
  | some p =>
    match fs p with
    | some cached => Except.ok (cached, fs)
    | none =>
      let cache := precomputeLoop pinv dev train_loader []
      Except.ok (cache, fun q => if q = p then some cache else fs q)

/-- The body of `apply_proj_cycle`'s batch loop (sampler.py:289-296): `b` is
the running `enumerate` index into the positionally indexed cache; a lookup
past the end of the cache list is an `IndexError`. -/
def applyCycleAux : List BatchJac → ℕ → List DMat → ParamSet → Except String ParamSet
  | [], _, _, p => Except.ok p
  | g :: rest, b, cache, p =>
    match cache[b]? with
    | none => Except.error "IndexError"
    | some m => applyCycleAux rest (b + 1) cache (batched_proj g m.mat p)

/-- `apply_proj_cycle` (sampler.py:265-297): one pass over every batch in
order, each batch's projection output feeding the next batch's input, with
the cached inverse for batch `b` fetched as `inv_jjt_cache[b]` (and moved to
the compute device, which leaves its entries unchanged). -/
def apply_proj_cycle (dataloader : List BatchJac) (inv_jjt_cache : List DMat)
    (params : ParamSet) : Except String ParamSet :=
  applyCycleAux dataloader 0 inv_jjt_cache params

/-- `alternating_projection` (sampler.py:336-351): `n_cycle` sequential full
passes of `apply_proj_cycle` (a deep copy of the input is returned unchanged
when `n_cycle = 0`). -/
def alternating_projection :
    ℕ → List BatchJac → List DMat → ParamSet → Except String ParamSet
  | 0, _, _, p => Except.ok p
  | n + 1, dl, cache, p =>
    match apply_proj_cycle dl cache p with
    | Except.error e => Except.error e
    | Except.ok q => alternating_projection n dl cache q

/-- One successful projection pass as a pure fold: the batches, in order,
zipped with cache entries 0 through m−1. -/
def projCycleFun (dl : List BatchJac) (cache : List DMat) (p : ParamSet) : ParamSet :=
  (List.zip dl cache).foldl (fun q gm => batched_proj gm.1 gm.2.mat q) p

/-- `randn_params` (sampler.py:32-67): `n_samples` dicts shaped like the
template, each entry an independent standard normal draw (supplied by the
RNG oracle `noise`, indexed by sample, key and entry — `torch.randn_like`)
scaled by `f = 1/torch.sqrt(precision)` (`sqrt` is the external numeric
square root). -/
def randn_params (sqrt : ℚ → ℚ) (noise : ℕ → String → ℕ → ℚ)
    (param_template : ParamSet) (precision : ℚ) (n_samples : ℕ) : List ParamSet :=
  let f := 1 / sqrt precision
  (List.range n_samples).map (fun i =>
    param_template.map (fun kv =>
      (kv.1, (List.range kv.2.length).map (fun j => f * noise i kv.1 j))))

/-- The posterior-sample construction of `lpp_sampler` (sampler.py:390):
`{k: v + p[k] for k, v in base_params.items()}`. -/
def addToBase (base p : ParamSet) : ParamSet :=
  base.map (fun kv => (kv.1, List.zipWith (fun a b => a + b) kv.2 (psLookup p kv.1)))

/-- The per-sample loop of `lpp_sampler` (sampler.py:380-390): project each
perturbation through the alternating-projection engine, add the result to the
base parameters, and append. -/
def samplerLoop (n_cycle : ℕ) (base : ParamSet) (dl : List BatchJac)
    (cache : List DMat) : List ParamSet → Except String (List ParamSet)
  | [] => Except.ok []
  | ps :: rest =>
    match alternating_projection n_cycle dl cache ps with
    | Except.error e => Except.error e
    | Except.ok p =>
      match samplerLoop n_cycle base dl cache rest with
      | Except.error e => Except.error e
      | Except.ok l => Except.ok (addToBase base p :: l)

/-- `lpp_sampler` (sampler.py:354-391): build or load the inverse-JJᵗ cache,
draw `n_samples` isotropic Gaussian perturbations, project each for
`n_cycle` cycles and add it to `base_params`. -/
def lpp_sampler (sqrt : ℚ → ℚ) (pinv : Mat → Mat) (noise : ℕ → String → ℕ → ℚ)
    (dev : Dev) (n_samples n_cycle : ℕ) (base_params : ParamSet)
    (iso_precision : ℚ) (dataloader : List BatchJac)
    (inv_jjt_cache_path : Option String) (fs : FS) : Except String (List ParamSet) :=
  match precompute_inv_jjt pinv dev dataloader inv_jjt_cache_path fs with
  | Except.error e => Except.error e
  | Except.ok (cache, _) =>
    samplerLoop n_cycle base_params dataloader cache
      (randn_params sqrt noise base_params iso_precision n_samples)

/-- A dynamically typed Python value, needed to follow `estimate_precision`
(sampler.py:394-434): it binds `test_params` to the *list* returned by
`randn_params` (never taking its single element) and then uses it where a
parameter dict is required. -/
inductive PyObj : Type
  | dict : ParamSet → PyObj
  | list : List ParamSet → PyObj

/-- `test_params.items()` (sampler.py:431): an `AttributeError` unless the
value is a dict. -/
def pyItems : PyObj → Except String ParamSet
  | PyObj.dict p => Except.ok p
  | PyObj.list _ => Except.error "AttributeError"

/-- `batched_proj` applied to a dynamically typed candidate: `torch.func.jvp`
(sampler.py:255) requires the tangent to have the same tree structure as the
dict primal `base_params` and raises `RuntimeError` for a list. -/
def batched_proj_dyn (g : BatchJac) (inv_jjt : Mat) : PyObj → Except String PyObj
  | PyObj.dict p => Except.ok (PyObj.dict (batched_proj g inv_jjt p))
  | PyObj.list _ => Except.error "RuntimeError"

/-- `apply_proj_cycle`'s batch loop over a dynamically typed candidate. -/
def applyCycleDynAux : List BatchJac → ℕ → List DMat → PyObj → Except String PyObj
  | [], _, _, v => Except.ok v
  | g :: rest, b, cache, v =>
    match cache[b]? with
    | none => Except.error "IndexError"
    | some m =>
      match batched_proj_dyn g m.mat v with
      | Except.error e => Except.error e
      | Except.ok v2 => applyCycleDynAux rest (b + 1) cache v2

/-- `apply_proj_cycle` over a dynamically typed candidate. -/
def apply_proj_cycle_dyn (dl : List BatchJac) (cache : List DMat) (v : PyObj) :
    Except String PyObj :=
  applyCycleDynAux dl 0 cache v

/-- `alternating_projection` over a dynamically typed candidate. -/
def alternating_projection_dyn :
    ℕ → List BatchJac → List DMat → PyObj → Except String PyObj
  | 0, _, _, v => Except.ok v
  | n + 1, dl, cache, v =>
    match apply_proj_cycle_dyn dl cache v with
    | Except.error e => Except.error e
    | Except.ok v2 => alternating_projection_dyn n dl cache v2

/-- `sum((v**2).sum() for ...)` (sampler.py:407-409), before the square
root. -/
def psNormSq (p : ParamSet) : ℚ := (p.map (fun kv => dotL kv.2 kv.2)).sum

/-- `sum(v.numel() for ...)` (sampler.py:410). -/
def numelSum (p : ParamSet) : ℕ := (p.map (fun kv => kv.2.length)).sum

/-- The Hutchinson loop of `estimate_precision` (sampler.py:421-431):
`remaining` trials left, `t` the trial counter (feeding the per-trial RNG
stream), `acc` the running `trace_approx`. -/
def hutchAux (sqrt : ℚ → ℚ) (noise : ℕ → ℕ → String → ℕ → ℚ) (base : ParamSet)
    (dl : List BatchJac) (cache : List DMat) (n_cycle : ℕ) :
    ℕ → ℕ → ℚ → Except String ℚ
  | 0, _, acc => Except.ok acc
  | remaining + 1, t, acc =>
    let test_params : PyObj := PyObj.list (randn_params sqrt (noise t) base 1 1)
    match alternating_projection_dyn n_cycle dl cache test_params with
    | Except.error e => Except.error e
    | Except.ok param_proj =>
      match pyItems test_params with
      | Except.error e => Except.error e
      | Except.ok tp =>
        match pyItems param_proj with
        | Except.error e => Except.error e
        | Except.ok pp =>
          hutchAux sqrt noise base dl cache n_cycle remaining (t + 1)
            (acc + (tp.map (fun kv => dotL kv.2 (psLookup pp kv.1))).sum)

/-- `estimate_precision` (sampler.py:394-434): `norm_param` is the L2 norm of
the flattened base parameters, `N` the parameter count; the Hutchinson trace
of the alternating projection is averaged over `n_samples` probes drawn at
precision 1, and `norm_param / (N - trace)` is returned. -/
def estimate_precision (sqrt : ℚ → ℚ) (pinv : Mat → Mat)
    (noise : ℕ → ℕ → String → ℕ → ℚ) (dev : Dev) (base_params : ParamSet)
    (dataloader : List BatchJac) (n_samples n_cycle : ℕ)
    (inv_jjt_cache_path : Option String) (fs : FS) : Except String ℚ :=
  let norm_param := sqrt (psNormSq base_params)
  let n_params : ℚ := (numelSum base_params : ℚ)
  match precompute_inv_jjt pinv dev dataloader inv_jjt_cache_path fs with
  | Except.error e => Except.error e
  | Except.ok (cache, _) =>
    match hutchAux sqrt noise base_params dataloader cache n_cycle n_samples 0 0 with
    | Except.error e => Except.error e
    | Except.ok trace_approx =>
      Except.ok (norm_param / (n_params - trace_approx / (n_samples : ℚ)))

theorem pshape_psSmul (a : ℚ) (p : ParamSet) : pshape (psSmul a p) = pshape p := by
  simp [pshape, psSmul, List.map_map, Function.comp]

theorem pshape_psZero (p : ParamSet) : pshape (psZero p) = pshape p := by
  simp [pshape, psZero, List.map_map, Function.comp]

theorem pshape_psAdd : ∀ (p q : ParamSet), pshape p = pshape q →
    pshape (psAdd p q) = pshape p := by
  intro p
  induction p with
  | nil => intro q _; rfl
  | cons kv p2 ih =>
    intro q h
    cases q with
    | nil => simp [pshape] at h
    | cons lw q2 =>
      simp only [pshape, List.map_cons, List.cons.injEq, Prod.mk.injEq] at h
      obtain ⟨⟨_, hlen⟩, htail⟩ := h
      simp only [psAdd, List.zipWith_cons_cons, pshape, List.map_cons,
        List.cons.injEq, Prod.mk.injEq, List.length_zipWith]
      exact ⟨⟨trivial, by omega⟩, ih q2 htail⟩

theorem keys_eq_of_pshape {p q : ParamSet} (h : pshape p = pshape q) :
    p.map Prod.fst = q.map Prod.fst := by
  have h2 := congrArg (List.map Prod.fst) h
  simpa [pshape, List.map_map, Function.comp] using h2

theorem psLookup_length : ∀ (c w : ParamSet), pshape w = pshape c →
    (c.map Prod.fst).Nodup → ∀ k v, (k, v) ∈ c →
    (psLookup w k).length = v.length := by
  intro c
  induction c with
  | nil =>
    intro w _ _ k v hm
    simp at hm
  | cons kv0 c2 ih =>
    obtain ⟨k0, v0⟩ := kv0
    intro w h hnd k v hm
    cases w with
    | nil => simp [pshape] at h
    | cons lw0 w2 =>
      obtain ⟨k1, w1⟩ := lw0
      simp only [pshape, List.map_cons, List.cons.injEq, Prod.mk.injEq] at h
      obtain ⟨⟨hk, hlen⟩, htail⟩ := h
      simp only [List.map_cons, List.nodup_cons] at hnd
      obtain ⟨hk0, hnd2⟩ := hnd
      rcases List.mem_cons.mp hm with heq | hmem
      · injection heq with hkk hvv
        subst hkk
        subst hvv
        have hfind : List.find? (fun kv => kv.1 == k) (((k1, w1) : String × Tensor) :: w2) =
            some (k1, w1) :=
          List.find?_cons_of_pos w2 (by simp [hk])
        simp only [psLookup, hfind, Option.map_some, Option.getD_some]
        exact hlen
      · have hkne : k ≠ k0 := by
          intro hkk
          exact hk0 (hkk ▸ List.mem_map_of_mem Prod.fst hmem)
        have hfind : List.find? (fun kv => kv.1 == k) (((k1, w1) : String × Tensor) :: w2) =
            List.find? (fun kv => kv.1 == k) w2 :=
          List.find?_cons_of_neg w2 (by simp [hk]; exact fun hh => hkne hh.symm)
        simp only [psLookup, hfind]
        exact ih w2 htail hnd2 k v hmem

theorem pshape_foldr_vjp (base : ParamSet) :
    ∀ (l : List (ℚ × ParamSet)) (init : ParamSet),
      (∀ x ∈ l, pshape x.2 = pshape base) → pshape init = pshape base →
      pshape (l.foldr (fun bu acc => psAdd (psSmul bu.1 bu.2) acc) init) =
        pshape base := by
  intro l
  induction l with
  | nil => intro init _ hinit; exact hinit
  | cons x l2 ih =>
    intro init hx hinit
    have hrest := ih init (fun y hy => hx y (List.mem_cons_of_mem x hy)) hinit
    rw [List.foldr_cons, pshape_psAdd _ _ (by
      rw [pshape_psSmul, hx x (List.mem_cons_self x l2), hrest]),
      pshape_psSmul]
    exact hx x (List.mem_cons_self x l2)

theorem pshape_map_zipWith_lookup (c V base : ParamSet) (op : ℚ → ℚ → ℚ)
    (hV : pshape V = pshape base) (hc : pshape c = pshape base)
    (hnd : (base.map Prod.fst).Nodup) :
    pshape (c.map (fun kv => (kv.1, List.zipWith op kv.2 (psLookup V kv.1)))) =
      pshape base := by
  have hndc : (c.map Prod.fst).Nodup := by
    rw [keys_eq_of_pshape hc]
    exact hnd
  have hVc : pshape V = pshape c := by rw [hV, hc]
  have hstep : ∀ kv ∈ c,
      (kv.1, (List.zipWith op kv.2 (psLookup V kv.1)).length) =
        (kv.1, kv.2.length) := by
    intro kv hkv
    have hl := psLookup_length c V hVc hndc kv.1 kv.2 (by simpa using hkv)
    rw [List.length_zipWith, hl, Nat.min_self]
  calc pshape (c.map (fun kv => (kv.1, List.zipWith op kv.2 (psLookup V kv.1))))
      = c.map (fun kv => (kv.1, (List.zipWith op kv.2 (psLookup V kv.1)).length)) := by
        simp [pshape, List.map_map, Function.comp]
    _ = c.map (fun kv => (kv.1, kv.2.length)) := List.map_congr_left hstep
    _ = pshape base := hc

/-- The reverse-mode term inside `batched_proj`: `Jᵗu` as the weighted sum
of the Jacobian rows. -/
def vjpTerm (g : BatchJac) (inv_jjt : Mat) (c : ParamSet) : ParamSet :=
  (List.zip (inv_jjt.map (fun arow => dotL arow (g.map (fun row => psDot row c)))) g).foldr
    (fun bu acc => psAdd (psSmul bu.1 bu.2) acc) (psZero c)

theorem batched_proj_eq (g : BatchJac) (inv_jjt : Mat) (c : ParamSet) :
    batched_proj g inv_jjt c =
      c.map (fun kv =>
        (kv.1, List.zipWith (fun a b => a - b) kv.2 (psLookup (vjpTerm g inv_jjt c) kv.1))) :=
  rfl

theorem pshape_batched_proj (g : BatchJac) (m : Mat) (c base : ParamSet)
    (hrows : ∀ row ∈ g, pshape row = pshape base)
    (hc : pshape c = pshape base) (hnd : (base.map Prod.fst).Nodup) :
    pshape (batched_proj g m c) = pshape base := by
  have hV : pshape (vjpTerm g m c) = pshape base := by
    unfold vjpTerm
    refine pshape_foldr_vjp base _ _ (fun x hx => ?_) (by rw [pshape_psZero, hc])
    exact hrows x.2 (List.of_mem_zip hx).2
  rw [batched_proj_eq]
  exact pshape_map_zipWith_lookup c _ base _ hV hc hnd

theorem pshape_foldl_cycle (base : ParamSet) (hnd : (base.map Prod.fst).Nodup) :
    ∀ (l : List (BatchJac × DMat)) (q : ParamSet),
      (∀ x ∈ l, ∀ row ∈ x.1, pshape row = pshape base) → pshape q = pshape base →
      pshape (l.foldl (fun r gm => batched_proj gm.1 gm.2.mat r) q) = pshape base := by
  intro l
  induction l with
  | nil => intro q _ hq; exact hq
  | cons x l2 ih =>
    intro q hx hq
    rw [List.foldl_cons]
    exact ih _ (fun y hy => hx y (List.mem_cons_of_mem x hy))
      (pshape_batched_proj x.1 x.2.mat q base (hx x (List.mem_cons_self x l2)) hq hnd)

theorem pshape_projCycleFun (dl : List BatchJac) (cache : List DMat)
    (base q : ParamSet) (hrows : ∀ g ∈ dl, ∀ row ∈ g, pshape row = pshape base)
    (hq : pshape q = pshape base) (hnd : (base.map Prod.fst).Nodup) :
    pshape (projCycleFun dl cache q) = pshape base :=
  pshape_foldl_cycle base hnd _ q
    (fun x hx => hrows x.1 (List.of_mem_zip hx).1) hq

theorem pshape_iterate_cycle (dl : List BatchJac) (cache : List DMat)
    (base : ParamSet) (hrows : ∀ g ∈ dl, ∀ row ∈ g, pshape row = pshape base)
    (hnd : (base.map Prod.fst).Nodup) :
    ∀ (n : ℕ) (q : ParamSet), pshape q = pshape base →
      pshape ((projCycleFun dl cache)^[n] q) = pshape base := by
  intro n
  induction n with
  | zero => intro q hq; exact hq
  | succ m ih =>
    intro q hq
    rw [Function.iterate_succ_apply]
    exact ih _ (pshape_projCycleFun dl cache base q hrows hq hnd)

theorem pshape_randn_params (sqrt : ℚ → ℚ) (noise : ℕ → String → ℕ → ℚ)
    (tmpl : ParamSet) (prec : ℚ) (n : ℕ) :
    ∀ ps ∈ randn_params sqrt noise tmpl prec n, pshape ps = pshape tmpl := by
  intro ps hps
  simp only [randn_params, List.mem_map] at hps
  obtain ⟨i, _, rfl⟩ := hps
  simp [pshape, List.map_map, Function.comp]

theorem pshape_addToBase (base p : ParamSet) (hp : pshape p = pshape base)
    (hnd : (base.map Prod.fst).Nodup) :
    pshape (addToBase base p) = pshape base :=
  pshape_map_zipWith_lookup base p base _ hp rfl hnd

theorem precomputeLoop_eq_map (pinv : Mat → Mat) (dev : Dev) :
    ∀ (dl : List BatchJac) (acc : List DMat),
      precomputeLoop pinv dev dl acc =
        acc ++ dl.map (fun g => DMat.toCpu ⟨pinv (batched_jjt g), dev⟩) := by
  intro dl
  induction dl with
  | nil => intro acc; simp [precomputeLoop]
  | cons g rest ih =>
    intro acc
    simp only [precomputeLoop, List.map_cons, ih, List.append_assoc,
      List.singleton_append]

theorem applyCycleAux_ok (dl : List BatchJac) :
    ∀ (b : ℕ) (cache : List DMat) (p : ParamSet), b + dl.length ≤ cache.length →
      applyCycleAux dl b cache p =
        Except.ok ((List.zip dl (cache.drop b)).foldl
          (fun q gm => batched_proj gm.1 gm.2.mat q) p) := by
  induction dl with
  | nil => intro b cache p _; simp [applyCycleAux]
  | cons g rest ih =>
    intro b cache p h
    simp only [List.length_cons] at h
    have hb : b < cache.length := by omega
    rw [List.drop_eq_getElem_cons hb, List.zip_cons_cons, List.foldl_cons]
    simp only [applyCycleAux, List.getElem?_eq_getElem hb]
    exact ih (b + 1) cache _ (by omega)

theorem applyCycleAux_err (dl : List BatchJac) :
    ∀ (b : ℕ) (cache : List DMat) (p : ParamSet), cache.length < b + dl.length →
      b ≤ cache.length → applyCycleAux dl b cache p = Except.error "IndexError" := by
  induction dl with
  | nil =>
    intro b cache p h1 h2
    simp only [List.length_nil, Nat.add_zero] at h1
    exact absurd h1 (Nat.not_lt.mpr h2)
  | cons g rest ih =>
    intro b cache p h1 h2
    simp only [List.length_cons] at h1
    by_cases hb : b < cache.length
    · simp only [applyCycleAux, List.getElem?_eq_getElem hb]
      exact ih (b + 1) cache _ (by omega) hb
    · simp only [applyCycleAux, List.getElem?_eq_none (Nat.le_of_not_lt hb)]

theorem apply_proj_cycle_ok (dl : List BatchJac) (cache : List DMat) (p : ParamSet)
    (h : dl.length ≤ cache.length) :
    apply_proj_cycle dl cache p = Except.ok (projCycleFun dl cache p) := by
  have := applyCycleAux_ok dl 0 cache p (by omega)
  rwa [List.drop_zero] at this

theorem apply_proj_cycle_err (dl : List BatchJac) (cache : List DMat) (p : ParamSet)
    (h : cache.length < dl.length) :
    apply_proj_cycle dl cache p = Except.error "IndexError" :=
  applyCycleAux_err dl 0 cache p (by omega) (Nat.zero_le _)

theorem alternating_projection_ok (dl : List BatchJac) (cache : List DMat)
    (h : dl.length ≤ cache.length) :
    ∀ (n : ℕ) (p : ParamSet), alternating_projection n dl cache p =
      Except.ok ((projCycleFun dl cache)^[n] p) := by
  intro n
  induction n with
  | zero => intro p; rfl
  | succ m ih =>
    intro p
    simp only [alternating_projection, apply_proj_cycle_ok dl cache p h]
    rw [ih (projCycleFun dl cache p), Function.iterate_succ_apply]

theorem samplerLoop_ok (n_cycle : ℕ) (base : ParamSet) (dl : List BatchJac)
    (cache : List DMat) (h : dl.length ≤ cache.length) :
    ∀ l : List ParamSet, samplerLoop n_cycle base dl cache l =
      Except.ok (l.map (fun ps => addToBase base ((projCycleFun dl cache)^[n_cycle] ps))) := by
  intro l
  induction l with
  | nil => rfl
  | cons ps rest ih =>
    simp only [samplerLoop, alternating_projection_ok dl cache h n_cycle ps, ih,
      List.map_cons]

end Sampler

/-- C10: `apply_proj_cycle` indexes the inverse-JJᵗ cache positionally: with
`m` batches and a cache of at least `m` matrices it succeeds, folding the
batches in order over cache entries 0 through m−1; with a shorter cache the
lookup at the first missing position raises `IndexError`. -/
theorem apply_proj_cycle_positional_cache
    (dl : List Sampler.BatchJac) (cache : List Sampler.DMat) (p : Sampler.ParamSet) :
    (dl.length ≤ cache.length →
      Sampler.apply_proj_cycle dl cache p =
        Except.ok ((List.zip dl cache).foldl
          (fun q gm => Sampler.batched_proj gm.1 gm.2.mat q) p)) ∧
    (cache.length < dl.length →
      Sampler.apply_proj_cycle dl cache p = Except.error "IndexError") :=
  ⟨fun h => Sampler.apply_proj_cycle_ok dl cache p h,
   fun h => Sampler.apply_proj_cycle_err dl cache p h⟩

def dlW : List Sampler.BatchJac := [[[("w", [1, 0])]]]

def cacheW : List Sampler.DMat := [⟨[[1]], Sampler.Dev.cpu⟩]

def pW : Sampler.ParamSet := [("w", [2, 3])]

/-- Concrete instance of C10: a one-batch loader with a one-entry cache
succeeds; the same loader with an empty cache hits `IndexError`. -/
theorem apply_proj_cycle_positional_cache_witness :
    Sampler.apply_proj_cycle dlW cacheW pW =
      Except.ok ((List.zip dlW cacheW).foldl
        (fun q gm => Sampler.batched_proj gm.1 gm.2.mat q) pW) ∧
    Sampler.apply_proj_cycle dlW [] pW = Except.error "IndexError" :=
  ⟨(apply_proj_cycle_positional_cache dlW cacheW pW).1 (by decide),
   (apply_proj_cycle_positional_cache dlW [] pW).2 (by decide)⟩

/-- C9: with `n_cycle = 0` the alternating-projection engine returns the
input perturbation unchanged, applying no batch projection; in general it
performs exactly `n_cycle` sequential full passes over the batch sequence in
order, each pass's output feeding the next. -/
theorem alternating_projection_zero_and_iterate
    (dl : List Sampler.BatchJac) (cache : List Sampler.DMat) (p : Sampler.ParamSet) :
    Sampler.alternating_projection 0 dl cache p = Except.ok p ∧
    (dl.length ≤ cache.length → ∀ n : ℕ,
      Sampler.alternating_projection n dl cache p =
        Except.ok ((Sampler.projCycleFun dl cache)^[n] p)) :=
  ⟨rfl, fun h n => Sampler.alternating_projection_ok dl cache h n p⟩

/-- Concrete instance of C9: zero cycles return the perturbation unchanged;
one cycle is one full pass. -/
theorem alternating_projection_zero_and_iterate_witness :
    Sampler.alternating_projection 0 dlW cacheW pW = Except.ok pW ∧
    Sampler.alternating_projection 1 dlW cacheW pW =
      Except.ok ((Sampler.projCycleFun dlW cacheW)^[1] pW) :=
  ⟨(alternating_projection_zero_and_iterate dlW cacheW pW).1,
   (alternating_projection_zero_and_iterate dlW cacheW pW).2 (by decide) 1⟩

/-- C3: with a usable path, the cache builder returns persisted content
verbatim when the path resolves (no recomputation, no validation), and
otherwise computes each batch's pseudo-inverted `JJᵗ` in order, moved to
host-side storage, persisting the full sequence to the path only once the
iteration has completed. -/
theorem precompute_inv_jjt_load_or_build (pinv : Sampler.Mat → Sampler.Mat)
    (dev : Sampler.Dev) (dl : List Sampler.BatchJac) (p : String) (fs : Sampler.FS) :
    (∀ cached, fs p = some cached →
      Sampler.precompute_inv_jjt pinv dev dl (some p) fs = Except.ok (cached, fs)) ∧
    (fs p = none →
      Sampler.precompute_inv_jjt pinv dev dl (some p) fs =
        Except.ok
          (dl.map (fun g => Sampler.DMat.toCpu ⟨pinv (Sampler.batched_jjt g), dev⟩),
           fun q => if q = p then
             some (dl.map (fun g => Sampler.DMat.toCpu ⟨pinv (Sampler.batched_jjt g), dev⟩))
           else fs q)) := by
  constructor
  · intro cached h
    simp [Sampler.precompute_inv_jjt, h]
  · intro h
    simp [Sampler.precompute_inv_jjt, h, Sampler.precomputeLoop_eq_map]

def fsW1 : Sampler.FS := fun q => if q = "cache.pkl" then some cacheW else none

def fsW0 : Sampler.FS := fun _ => none

/-- Concrete instance of C3: a resolving path returns the persisted matrices
verbatim; a fresh path computes and persists the full sequence. -/
theorem precompute_inv_jjt_load_or_build_witness :
    Sampler.precompute_inv_jjt (fun m => m) Sampler.Dev.cuda dlW (some "cache.pkl") fsW1 =
      Except.ok (cacheW, fsW1) ∧
    Sampler.precompute_inv_jjt (fun m => m) Sampler.Dev.cuda dlW (some "cache.pkl") fsW0 =
      Except.ok
        (dlW.map (fun g => Sampler.DMat.toCpu ⟨Sampler.batched_jjt g, Sampler.Dev.cuda⟩),
         fun q => if q = "cache.pkl" then
           some (dlW.map (fun g => Sampler.DMat.toCpu ⟨Sampler.batched_jjt g, Sampler.Dev.cuda⟩))
         else fsW0 q) :=
  ⟨(precompute_inv_jjt_load_or_build (fun m => m) Sampler.Dev.cuda dlW "cache.pkl" fsW1).1
      cacheW (by simp [fsW1]),
   (precompute_inv_jjt_load_or_build (fun m => m) Sampler.Dev.cuda dlW "cache.pkl" fsW0).2
      rfl⟩

/-- C4: the claim says an unset/empty path skips caching and still returns
the in-memory sequence, but the code has no such branch: with the default
`save_path=None` the guard `os.path.exists(save_path)` raises `TypeError`
before any computation, so the call fails. -/
theorem precompute_inv_jjt_none_path_raises (pinv : Sampler.Mat → Sampler.Mat)
    (dev : Sampler.Dev) (dl : List Sampler.BatchJac) (fs : Sampler.FS) :
    Sampler.precompute_inv_jjt pinv dev dl none fs = Except.error "TypeError" :=
  rfl

/-- C5: with a working configuration (fresh cache path, Jacobian rows shaped
like the base parameters, distinct parameter names), `lpp_sampler` with
`n_samples = k` returns exactly `k` parameter dicts, each with the names and
shapes of `base_params`, and each equal to `base_params` plus (elementwise)
its perturbation after `n_cycle` alternating-projection cycles. -/
theorem lpp_sampler_output (sqrt : ℚ → ℚ) (pinv : Sampler.Mat → Sampler.Mat)
    (noise : ℕ → String → ℕ → ℚ) (dev : Sampler.Dev) (k n_cycle : ℕ)
    (base : Sampler.ParamSet) (prec : ℚ) (dl : List Sampler.BatchJac) (p : String)
    (fs : Sampler.FS) (hfs : fs p = none)
    (hrows : ∀ g ∈ dl, ∀ row ∈ g, Sampler.pshape row = Sampler.pshape base)
    (hnd : (base.map Prod.fst).Nodup) :
    Sampler.lpp_sampler sqrt pinv noise dev k n_cycle base prec dl (some p) fs =
      Except.ok ((Sampler.randn_params sqrt noise base prec k).map
        (fun ps => Sampler.addToBase base
          ((Sampler.projCycleFun dl (dl.map (fun g =>
            Sampler.DMat.toCpu ⟨pinv (Sampler.batched_jjt g), dev⟩)))^[n_cycle] ps))) ∧
    ((Sampler.randn_params sqrt noise base prec k).map
        (fun ps => Sampler.addToBase base
          ((Sampler.projCycleFun dl (dl.map (fun g =>
            Sampler.DMat.toCpu ⟨pinv (Sampler.batched_jjt g), dev⟩)))^[n_cycle] ps))).length = k ∧
    ∀ s ∈ (Sampler.randn_params sqrt noise base prec k).map
        (fun ps => Sampler.addToBase base
          ((Sampler.projCycleFun dl (dl.map (fun g =>
            Sampler.DMat.toCpu ⟨pinv (Sampler.batched_jjt g), dev⟩)))^[n_cycle] ps)),
      Sampler.pshape s = Sampler.pshape base := by
  have hlen : dl.length ≤ (dl.map (fun g =>
      Sampler.DMat.toCpu ⟨pinv (Sampler.batched_jjt g), dev⟩)).length := by
    rw [List.length_map]
  refine ⟨?_, ?_, ?_⟩
  · simp only [Sampler.lpp_sampler, Sampler.precompute_inv_jjt, hfs,
      Sampler.precomputeLoop_eq_map, List.nil_append]
    exact Sampler.samplerLoop_ok n_cycle base dl _ hlen _
  · rw [List.length_map, Sampler.randn_params, List.length_map, List.length_range]
  · intro s hs
    simp only [List.mem_map] at hs
    obtain ⟨ps, hps, rfl⟩ := hs
    refine Sampler.pshape_addToBase base _ ?_ hnd
    exact Sampler.pshape_iterate_cycle dl _ base hrows hnd n_cycle ps
      (Sampler.pshape_randn_params sqrt noise base prec k ps hps)

/-- Concrete instance of C5: two samples from a one-parameter base with a
one-batch loader and one projection cycle. -/
theorem lpp_sampler_output_witness :
    Sampler.lpp_sampler (fun q => q) (fun m => m) (fun _ _ _ => 1) Sampler.Dev.cpu
        2 1 pW 1 dlW (some "cache.pkl") fsW0 =
      Except.ok ((Sampler.randn_params (fun q => q) (fun _ _ _ => 1) pW 1 2).map
        (fun ps => Sampler.addToBase pW
          ((Sampler.projCycleFun dlW (dlW.map (fun g =>
            Sampler.DMat.toCpu ⟨Sampler.batched_jjt g, Sampler.Dev.cpu⟩)))^[1] ps))) ∧
    ((Sampler.randn_params (fun q => q) (fun _ _ _ => 1) pW 1 2).map
        (fun ps => Sampler.addToBase pW
          ((Sampler.projCycleFun dlW (dlW.map (fun g =>
            Sampler.DMat.toCpu ⟨Sampler.batched_jjt g, Sampler.Dev.cpu⟩)))^[1] ps))).length = 2 ∧
    ∀ s ∈ (Sampler.randn_params (fun q => q) (fun _ _ _ => 1) pW 1 2).map
        (fun ps => Sampler.addToBase pW
          ((Sampler.projCycleFun dlW (dlW.map (fun g =>
            Sampler.DMat.toCpu ⟨Sampler.batched_jjt g, Sampler.Dev.cpu⟩)))^[1] ps)),
      Sampler.pshape s = Sampler.pshape pW :=
  lpp_sampler_output (fun q => q) (fun m => m) (fun _ _ _ => 1) Sampler.Dev.cpu
    2 1 pW 1 dlW "cache.pkl" fsW0 rfl
    (by
      intro g hg row hrow
      simp only [dlW, List.mem_singleton] at hg
      subst hg
      simp only [List.mem_singleton] at hrow
      subst hrow
      rfl)
    (by simp [pW])

/-- C2: the claim says the estimator draws a perturbation, projects it and
averages `vᵗ·Pv`, but the code binds `test_params` to the one-element *list*
returned by `randn_params` (missing `[0]`); `test_params.items()` then
raises `AttributeError` (and with a non-empty loader `torch.func.jvp`
already raises on the list tangent), so `estimate_precision` raises instead
of returning `norm_param / (N − trace)`.  Shown here on a concrete call with
`n_samples = 1` and the default `n_cycle = 10`. -/
theorem estimate_precision_raises :
    Sampler.estimate_precision (fun q => q) (fun m => m) (fun _ _ _ _ => 0)
      Sampler.Dev.cpu [("w", [1])] [] 1 10 (some "c") (fun _ => none) =
      Except.error "AttributeError" :=
  rfl
